import Mathlib

/-!
Shallow embedding of the ulauncher file-browser extension (`main.py`).

Python strings are modelled as `List Char`; `Path` values are modelled by the
string handed to the `Path` constructor; the filesystem is modelled as a
function from a path to `Option (List Entry)` (`none` meaning the directory
enumeration raises, e.g. `FileNotFoundError`); an exception escaping the
event handler is modelled as `Except.error`.
-/

namespace FileBrowser

/-- The set of characters removed by Python's `str.strip()` (ASCII fragment). -/
def py_isspace (c : Char) : Bool :=
  c == ' ' || c == '\t' || c == '\n' || c == '\r' || c == '\x0b' || c == '\x0c'

/-- Python `str.strip()`: remove leading and trailing whitespace. -/
def pyStrip (l : List Char) : List Char :=
  ((l.dropWhile py_isspace).reverse.dropWhile py_isspace).reverse

/-- The filter normalization done in `matches_filter`:
`filter_.lower().replace(' ', '').strip()`. -/
def pyNormalize (f : List Char) : List Char :=
  pyStrip ((f.map Char.toLower).filter (fun c => c != ' '))

/-- The character loop of `matches_filter`: for each filter character, find its
first occurrence in `rest` (`rest.index`, `ValueError` -> `false`) and keep the
suffix of `rest` from that occurrence on (`rest = rest[index:]`). -/
def subseq_loop : List Char → List Char → Bool
  | _, [] => true
  | rest, c :: cs =>
    match rest.findIdx? (fun x => x == c) with
    | none => false
    | some i => subseq_loop (rest.drop i) cs

/-- `matches_filter(file_name, filter_)` from `main.py`. -/
def matches_filter (file_name filter_ : List Char) : Bool :=
  if filter_.isEmpty then
    !(file_name.head? == some '.')
  else
    subseq_loop (file_name.map Char.toLower) (pyNormalize filter_)

/-- Modelled from the spec: the cursor formulation of the matcher. `find the
first occurrence of `c` in `name` at or after position `cur``. -/
def find_at_or_after (name : List Char) (cur : Nat) (c : Char) : Option Nat :=
  ((name.drop cur).findIdx? (fun x => x == c)).map (· + cur)

/-- Modelled from the spec: scan the name with a cursor starting at `cur`; each
filter character must occur at or after the cursor, and the cursor advances to
that occurrence's index (not index+1). -/
def cursorScan (name : List Char) : Nat → List Char → Bool
  | _, [] => true
  | cur, c :: cs =>
    match find_at_or_after name cur c with
    | none => false
    | some i => cursorScan name i cs

/-- Python `str.split(sep)` on a single-character separator. -/
def pySplit (sep : Char) : List Char → List (List Char)
  | [] => [[]]
  | c :: rest =>
    let r := pySplit sep rest
    if c = sep then [] :: r
    else
      match r with
      | [] => [[c]]
      | h :: t => (c :: h) :: t

/-- Python `sep.join(parts)` on a single-character separator. -/
def pyJoin (sep : Char) : List (List Char) → List Char
  | [] => []
  | [x] => x
  | x :: y :: t => x ++ sep :: pyJoin sep (y :: t)

/-- `Path.expanduser()`: replace a leading `~` component by the home
directory. (The `~user` form, which looks up another user's home, is outside
the model.) -/
def expanduser (home : List Char) (p : List Char) : List Char :=
  match p with
  | '~' :: rest => if rest = [] ∨ rest.head? = some '/' then home ++ rest else p
  | _ => p

/-- The (base path, filter) pair produced from the raw query argument. -/
structure ParsedQuery where
  base_path : List Char
  filter : List Char
deriving DecidableEq, Repr

/-- Lines 120–131 of `main.py`: split the raw argument on `/` into a base path
and a filter, falling back to the configured default path, then apply
`expanduser` to the base path. The argument is `none` when ulauncher delivers
no argument (Python `None`). -/
def parse_query (home : List Char) (argument : Option (List Char))
    (default_path : List Char) : ParsedQuery :=
  let pair :=
    match argument with
    | some arg =>
      if arg ≠ [] ∧ '/' ∈ arg then
        let bits := pySplit '/' arg
        (pyJoin '/' bits.dropLast, bits.getLastD [])
      else
        (default_path, arg)
    | none => (default_path, [])
  { base_path := expanduser home pair.1, filter := pair.2 }

/-- Modelled from the spec: "the filter is the last segment", i.e. the suffix
of the argument after its last separator. -/
def spec_last_segment (sep : Char) (a : List Char) : List Char :=
  (a.reverse.takeWhile (fun c => c != sep)).reverse

/-- Modelled from the spec: "the base path is all segments except the last,
joined by the separator", i.e. the text of the argument before its last
separator. -/
def spec_before_last (sep : Char) (a : List Char) : List Char :=
  ((a.reverse.dropWhile (fun c => c != sep)).reverse).dropLast

/-- A directory child as produced by `current_path.iterdir()`: its final name
component, its full path (as a string) and whether it is a directory. -/
structure Entry where
  name : List Char
  path : List Char
  is_dir : Bool
deriving DecidableEq, Repr

/-- Lexicographic `≤` on Python strings (code-point order). -/
def strLE : List Char → List Char → Bool
  | [], _ => true
  | _ :: _, [] => false
  | x :: xs, y :: ys => if x = y then strLE xs ys else decide (x < y)

/-- Python tuple comparison on the sort key
`(not child_path.is_dir(), child_path.name)` used at lines 145–148. -/
def entry_le (a b : Entry) : Bool :=
  if (!a.is_dir) = (!b.is_dir) then strLE a.name b.name else !a.is_dir = false

/-- `entry_le` as a decidable relation, the form `List.insertionSort` takes. -/
def entryLE (a b : Entry) : Prop := entry_le a b = true

instance : DecidableRel entryLE := fun a b => decEq (entry_le a b) true

/-- `sorted(current_path.iterdir(), key=lambda p: (not p.is_dir(), p.name))`.
Python's `sorted` is a stable sort, so it is modelled by the stable insertion
sort, which produces the same list for any total, transitive comparison. -/
def sort_children (l : List Entry) : List Entry :=
  l.insertionSort entryLE

/-- The `on_enter` action of a result item. -/
inductive ItemAction where
  | OpenAction : List Char → ItemAction
  | SetUserQueryAction : List Char → ItemAction
deriving DecidableEq, Repr

/-- An `ExtensionResultItem` (the icon, which comes from the external GTK
theme collaborator, is not modelled). -/
structure ResultItem where
  name : List Char
  on_enter : ItemAction
deriving DecidableEq, Repr

/-- Digits-only parse used by `pyInt?`. -/
def digitsToNat? (ds : List Char) : Option Nat :=
  if ds = [] then none
  else if ds.all Char.isDigit then
    some (ds.foldl (fun acc c => acc * 10 + (c.toNat - 48)) 0)
  else none

/-- Python `int(s)` on a string: surrounding whitespace, an optional sign and
a non-empty run of digits; anything else raises `ValueError` (`none`). -/
def pyInt? (s : List Char) : Option Int :=
  match pyStrip s with
  | '-' :: ds => (digitsToNat? ds).map (fun n => -(n : Int))
  | '+' :: ds => (digitsToNat? ds).map (fun n => (n : Int))
  | ds => (digitsToNat? ds).map (fun n => (n : Int))

/-- The state of `items_limit` after lines 150–155: absent (`None`), parsed to
an int, or left as the raw string when `int()` raises `ValueError`. -/
inductive LimitSetting where
  | noLimit : LimitSetting
  | numeric : Int → LimitSetting
  | invalid : List Char → LimitSetting
deriving DecidableEq, Repr

/-- Lines 150–155 of `main.py`. -/
def parse_items_limit (pref : Option (List Char)) : LimitSetting :=
  match pref with
  | none => .noLimit
  | some s =>
    match pyInt? s with
    | some n => .numeric n
    | none => .invalid s

/-- The test `items_limit is not None and items_count == items_limit` at line
177; in Python 3 an `int == str` comparison is `False`. -/
def limit_reached (limit : LimitSetting) (count : Nat) : Bool :=
  match limit with
  | .noLimit => false
  | .numeric n => (count : Int) == n
  | .invalid _ => false

/-- The query string of the `SetUserQueryAction` built at line 165:
`"{} {}/".format(keyword, str(child_path))`. -/
def mk_descend_query (keyword path : List Char) : List Char :=
  keyword ++ ' ' :: (path ++ ['/'])

/-- The `ExtensionResultItem` built for one child (lines 164–174). -/
def child_item (keyword : List Char) (c : Entry) : ResultItem :=
  { name := c.name,
    on_enter :=
      if c.is_dir then .SetUserQueryAction (mk_descend_query keyword c.path)
      else .OpenAction c.path }

/-- The synthetic "open current folder" pseudo-item (lines 136–142). -/
def open_folder_item (current_path : List Char) : ResultItem :=
  { name := "[ Open folder in external file browser ]".data,
    on_enter := .OpenAction current_path }

/-- The loop at lines 160–178: visibility check, filter check, item build,
counter increment and limit break. -/
def list_children (keyword filter_ : List Char) (show_hidden : Bool)
    (limit : LimitSetting) : List Entry → Nat → List ResultItem
  | [], _ => []
  | c :: rest, count =>
    if show_hidden || !(c.name.head? == some '.') then
      if matches_filter c.name filter_ then
        let item := child_item keyword c
        if limit_reached limit (count + 1) then [item]
        else item :: list_children keyword filter_ show_hidden limit rest (count + 1)
      else list_children keyword filter_ show_hidden limit rest count
    else list_children keyword filter_ show_hidden limit rest count

/-- The two inclusion rules of the loop, as a single predicate: the
visibility rule (`show_hidden or not name.startswith('.')`) and the filter
rule (`matches_filter`). -/
def passes_rules (show_hidden : Bool) (filter_ : List Char) (c : Entry) : Bool :=
  (show_hidden || !(c.name.head? == some '.')) && matches_filter c.name filter_

/-- The extension preferences used by the query handler. -/
structure Preferences where
  fb_default_path : List Char
  fb_items_limit : Option (List Char)
  fb_show_hidden : Option (List Char)
deriving DecidableEq, Repr

/-- The exception escaping `on_event` when `iterdir()` fails. -/
inductive PyError where
  | fileNotFound : PyError
deriving DecidableEq, Repr

instance {ε α : Type} [DecidableEq ε] [DecidableEq α] : DecidableEq (Except ε α) := fun a b =>
  match a, b with
  | .error e, .error f =>
    if h : e = f then isTrue (by rw [h]) else isFalse (fun hh => h (by cases hh; rfl))
  | .ok x, .ok y =>
    if h : x = y then isTrue (by rw [h]) else isFalse (fun hh => h (by cases hh; rfl))
  | .error _, .ok _ => isFalse (fun hh => Except.noConfusion hh)
  | .ok _, .error _ => isFalse (fun hh => Except.noConfusion hh)

/-- `KeywordQueryEventListener.on_event` (lines 116–180). The filesystem `fs`
maps a path to its children, `none` meaning `iterdir()` raises; since the
handler has no try/except, that exception escapes as `.error`. -/
def on_event (keyword : List Char) (argument : Option (List Char))
    (prefs : Preferences) (home : List Char)
    (fs : List Char → Option (List Entry)) : Except PyError (List ResultItem) :=
  let pq := parse_query home argument prefs.fb_default_path
  let first := if pq.filter.isEmpty then [open_folder_item pq.base_path] else []
  match fs pq.base_path with
  | none => .error .fileNotFound
  | some children =>
    let limit := parse_items_limit prefs.fb_items_limit
    let show_hidden := prefs.fb_show_hidden == some "Yes".data
    .ok (first ++ list_children keyword pq.filter show_hidden limit
      (sort_children children) 0)

/-! ### Helper lemmas about characters and the matcher -/

theorem toNat_ofNat_of_lt {n : Nat} (h : n < 55296) : (Char.ofNat n).toNat = n := by
  rw [Char.ofNat, dif_pos (Or.inl h)]
  rfl

theorem toLower_eq_space_iff (c : Char) : Char.toLower c = ' ' ↔ c = ' ' := by
  constructor
  · intro h
    rw [Char.toLower] at h
    split at h
    · rename_i hr
      have h2 := congrArg Char.toNat h
      rw [toNat_ofNat_of_lt (by omega)] at h2
      have : Char.toNat ' ' = 32 := rfl
      omega
    · exact h
  · intro h
    rw [h]
    decide

theorem subseq_loop_eq_cursorScan (name : List Char) :
    ∀ (cs : List Char) (cur : Nat), subseq_loop (name.drop cur) cs = cursorScan name cur cs
  | [], _ => rfl
  | c :: cs, cur => by
    simp only [subseq_loop, cursorScan, find_at_or_after]
    cases h : (name.drop cur).findIdx? (fun x => x == c) with
    | none => simp [h]
    | some i =>
      simp only [h, Option.map_some']
      rw [List.drop_drop, Nat.add_comm cur i]
      exact subseq_loop_eq_cursorScan name cs (i + cur)

theorem pyNormalize_factor (f : List Char) :
    pyNormalize f = pyStrip ((f.filter (fun c => c != ' ')).map Char.toLower) := by
  rw [pyNormalize, List.filter_map]
  have : ((fun c => c != ' ') ∘ Char.toLower) = (fun c => c != ' ') := by
    funext c
    simp only [Function.comp_apply, bne]
    congr 1
    rw [Bool.eq_iff_iff, beq_iff_eq, beq_iff_eq]
    exact toLower_eq_space_iff c

  rw [this]

theorem matches_filter_nonempty (name : List Char) {f : List Char} (hf : f ≠ []) :
    matches_filter name f = subseq_loop (name.map Char.toLower) (pyNormalize f) := by
  cases f with
  | nil => exact absurd rfl hf
  | cons c cs => rfl

/-! ### Claims about the matcher -/

/-- C1: for every non-empty filter, `matches_filter` agrees with the spec's
cursor formulation: scanning the lower-cased name from cursor 0, each
normalized filter character must occur at or after the cursor, the cursor
advancing to that occurrence's index (not index+1); overlap is allowed and
matching is order-sensitive: `matches_filter "fisa" "fa" = true` and
`matches_filter "fisa" "af" = false`. -/
theorem claim_C1_cursor_semantics :
    (∀ name f : List Char, f ≠ [] →
      matches_filter name f = cursorScan (name.map Char.toLower) 0 (pyNormalize f)) ∧
    matches_filter "fisa".data "fa".data = true ∧
    matches_filter "fisa".data "af".data = false := by
  refine ⟨fun name f hf => ?_, by decide, by decide⟩
  rw [matches_filter_nonempty name hf,
    ← subseq_loop_eq_cursorScan (name.map Char.toLower) (pyNormalize f) 0,
    List.drop_zero]

/-- Witness for C1 at a concrete input. -/
theorem claim_C1_cursor_semantics_witness :
    matches_filter "Readme".data "rm".data
      = cursorScan ("Readme".data.map Char.toLower) 0 (pyNormalize "rm".data) :=
  claim_C1_cursor_semantics.1 "Readme".data "rm".data (by decide)

/-- C2: with the empty filter, `matches_filter` returns true exactly when the
name does not start with the hidden marker `'.'`; `.git` is rejected and
`notes` accepted. -/
theorem claim_C2_empty_filter :
    (∀ name : List Char, matches_filter name [] = true ↔ name.head? ≠ some '.') ∧
    matches_filter ".git".data [] = false ∧
    matches_filter "notes".data [] = true := by
  refine ⟨fun name => ?_, by decide, by decide⟩
  simp [matches_filter]

/-- C3: the result of `matches_filter` on a non-empty filter depends only on
the filter's space-stripped, lower-cased character sequence, so it is
invariant under changing the case of the filter and inserting spaces;
`matches_filter "MyFile.txt" "my file" = true`. -/
theorem claim_C3_case_space_insensitive :
    (∀ name f g : List Char, f ≠ [] → g ≠ [] →
      (g.filter (fun c => c != ' ')).map Char.toLower
        = (f.filter (fun c => c != ' ')).map Char.toLower →
      matches_filter name g = matches_filter name f) ∧
    matches_filter "MyFile.txt".data "my file".data = true := by
  refine ⟨fun name f g hf hg h => ?_, by decide⟩
  rw [matches_filter_nonempty name hf, matches_filter_nonempty name hg,
    pyNormalize_factor, pyNormalize_factor, h]

/-- Witness for C3 at a concrete input: `"MY FILE"` and `"myfile"` normalize
alike, hence match alike. -/
theorem claim_C3_case_space_insensitive_witness :
    matches_filter "MyFile.txt".data "MY FILE".data
      = matches_filter "MyFile.txt".data "myfile".data :=
  claim_C3_case_space_insensitive.1 "MyFile.txt".data "myfile".data "MY FILE".data
    (by decide) (by decide) (by decide)

/-- C10: a non-empty filter consisting only of spaces normalizes to the empty
character list, so the character loop succeeds vacuously and every name
matches — including hidden names, unlike the genuinely empty filter. -/
theorem claim_C10_space_only_filter :
    (∀ name f : List Char, f ≠ [] → (∀ c ∈ f, c = ' ') →
      matches_filter name f = true) ∧
    matches_filter ".hidden".data "  ".data = true ∧
    matches_filter ".hidden".data [] = false := by
  refine ⟨fun name f hf hsp => ?_, by decide, by decide⟩
  rw [matches_filter_nonempty name hf]
  have hfil : (f.map Char.toLower).filter (fun c => c != ' ') = [] := by
    rw [List.filter_eq_nil_iff]
    intro a ha
    rw [List.mem_map] at ha
    obtain ⟨b, hb, rfl⟩ := ha
    rw [hsp b hb]
    decide
  rw [pyNormalize, hfil]
  rfl

/-- Witness for C10 at a concrete input. -/
theorem claim_C10_space_only_filter_witness :
    matches_filter ".git".data " ".data = true :=
  claim_C10_space_only_filter.1 ".git".data " ".data (by decide)
    (by intro c hc; cases hc with
        | head => rfl
        | tail _ h => cases h)

/-! ### Helper lemmas about splitting and joining -/

theorem pySplit_ne_nil (sep : Char) (l : List Char) : pySplit sep l ≠ [] := by
  cases l with
  | nil => simp [pySplit]
  | cons c rest =>
    simp only [pySplit]
    split
    · simp
    · cases h : pySplit sep rest with
      | nil => simp
      | cons hh tt => simp

theorem pySplit_of_not_mem (sep : Char) : ∀ l : List Char, sep ∉ l → pySplit sep l = [l]
  | [], _ => rfl
  | c :: rest, h => by
    have hc : c ≠ sep := fun hcs => h (hcs ▸ List.mem_cons_self c rest)
    have hrest : sep ∉ rest := fun hr => h (List.mem_cons_of_mem c hr)
    simp only [pySplit, if_neg hc, pySplit_of_not_mem sep rest hrest]

theorem pyJoin_pySplit (sep : Char) : ∀ l : List Char, pyJoin sep (pySplit sep l) = l
  | [] => rfl
  | c :: rest => by
    simp only [pySplit]
    by_cases hc : c = sep
    · rw [if_pos hc]
      cases hr : pySplit sep rest with
      | nil => exact absurd hr (pySplit_ne_nil sep rest)
      | cons h t =>
        have hj := pyJoin_pySplit sep rest
        rw [hr] at hj
        show pyJoin sep ([] :: h :: t) = c :: rest
        rw [pyJoin, List.nil_append, hj, hc]
    · rw [if_neg hc]
      cases hr : pySplit sep rest with
      | nil => exact absurd hr (pySplit_ne_nil sep rest)
      | cons h t =>
        have hj := pyJoin_pySplit sep rest
        rw [hr] at hj
        cases t with
        | nil =>
          rw [pyJoin] at hj
          show pyJoin sep [c :: h] = c :: rest
          rw [pyJoin, hj]
        | cons t1 ts =>
          rw [pyJoin] at hj
          show pyJoin sep ((c :: h) :: t1 :: ts) = c :: rest
          rw [pyJoin, List.cons_append, hj]

theorem pySplit_append (sep : Char) (v : List Char) (hv : sep ∉ v) :
    ∀ u : List Char, pySplit sep (u ++ sep :: v) = pySplit sep u ++ [v]
  | [] => by
    rw [List.nil_append]
    show pySplit sep (sep :: v) = [[]] ++ [v]
    simp only [pySplit, if_pos rfl, pySplit_of_not_mem sep v hv]
    rfl
  | c :: u => by
    rw [List.cons_append]
    simp only [pySplit]
    by_cases hc : c = sep
    · rw [if_pos hc, if_pos hc, pySplit_append sep v hv u]
      rfl
    · rw [if_neg hc, if_neg hc, pySplit_append sep v hv u]
      cases h : pySplit sep u with
      | nil => exact absurd h (pySplit_ne_nil sep u)
      | cons hh tt => simp

theorem dropWhile_ne_eq_cons {sep : Char} :
    ∀ {l : List Char}, sep ∈ l →
      ∃ R, l.dropWhile (fun c => c != sep) = sep :: R := by
  intro l hl
  induction l with
  | nil => cases hl
  | cons c t ih =>
    by_cases hc : c = sep
    · subst hc
      exact ⟨t, by simp [List.dropWhile_cons]⟩
    · have ht : sep ∈ t := by
        cases List.mem_cons.mp hl with
        | inl h => exact absurd h.symm hc
        | inr h => exact h
      obtain ⟨R, hR⟩ := ih ht
      refine ⟨R, ?_⟩
      rw [List.dropWhile_cons, if_pos (by simpa using hc), hR]

/-- For an argument containing the separator, the argument decomposes as the
text before the last separator, the separator, and the (separator-free) last
segment. -/
theorem before_after_decomp (sep : Char) (a : List Char) (h : sep ∈ a) :
    a = spec_before_last sep a ++ sep :: spec_last_segment sep a ∧
      sep ∉ spec_last_segment sep a := by
  have hrev : sep ∈ a.reverse := List.mem_reverse.mpr h
  obtain ⟨R, hR⟩ := dropWhile_ne_eq_cons hrev
  constructor
  · conv_lhs => rw [← List.reverse_reverse a,
      ← List.takeWhile_append_dropWhile (p := fun c => c != sep) (l := a.reverse)]
    rw [hR, List.reverse_append, List.reverse_cons, spec_before_last, hR,
      List.reverse_cons, List.dropLast_concat, spec_last_segment]
    simp [List.append_assoc]
  · intro hmem
    rw [spec_last_segment, List.mem_reverse] at hmem
    have := List.mem_takeWhile_imp hmem
    simp at this

/-! ### Claims about query parsing -/

/-- C4: if the raw argument contains `'/'`, the base path is everything
before the last separator (equivalently, all segments but the last rejoined)
and the filter is the (possibly empty) last segment; otherwise the base path
is the configured default path and the filter is the argument verbatim
(empty when absent); `expanduser` is applied to the base path once, after the
branch. -/
theorem claim_C4_query_parsing : ∀ home default_path : List Char,
    (∀ a : List Char, '/' ∈ a →
      parse_query home (some a) default_path
        = ⟨expanduser home (spec_before_last '/' a), spec_last_segment '/' a⟩) ∧
    (∀ a : List Char, '/' ∉ a →
      parse_query home (some a) default_path = ⟨expanduser home default_path, a⟩) ∧
    parse_query home none default_path = ⟨expanduser home default_path, []⟩ := by
  intro home dp
  refine ⟨fun a ha => ?_, fun a ha => ?_, rfl⟩
  · have hne : a ≠ [] := by rintro rfl; cases ha
    obtain ⟨hdec, hnot⟩ := before_after_decomp '/' a ha
    have hsplit : pySplit '/' a
        = pySplit '/' (spec_before_last '/' a) ++ [spec_last_segment '/' a] := by
      conv_lhs => rw [hdec]
      exact pySplit_append '/' _ hnot _
    simp only [parse_query, if_pos (And.intro hne ha)]
    rw [hsplit, List.dropLast_concat, List.getLastD_concat, pyJoin_pySplit]
  · simp only [parse_query]
    rw [if_neg (fun hh => ha hh.2)]

/-- Witness for C4 at concrete inputs: both branches, matching the spec's
round-trip examples. -/
theorem claim_C4_query_parsing_witness :
    parse_query "/h".data (some "documents/notes".data) "/default".data
      = ⟨"documents".data, "notes".data⟩ ∧
    parse_query "/h".data (some "documents/".data) "/default".data
      = ⟨"documents".data, []⟩ ∧
    parse_query "/h".data (some "notes".data) "/default".data
      = ⟨"/default".data, "notes".data⟩ := by
  refine ⟨?_, ?_, ?_⟩
  · exact ((claim_C4_query_parsing "/h".data "/default".data).1
      "documents/notes".data (by decide)).trans (by decide)
  · exact ((claim_C4_query_parsing "/h".data "/default".data).1
      "documents/".data (by decide)).trans (by decide)
  · exact ((claim_C4_query_parsing "/h".data "/default".data).2.1
      "notes".data (by decide)).trans (by decide)

/-- C5: a directory entry's item carries a `SetUserQueryAction` whose query
string is the keyword, a space, the entry's path and a trailing `'/'`;
re-parsing the path-plus-slash argument yields that path (expanduser'd, which
fixes absolute paths) as base and the empty filter. -/
theorem claim_C5_descend_round_trip :
    (∀ (keyword : List Char) (e : Entry), e.is_dir = true →
      (child_item keyword e).on_enter
        = .SetUserQueryAction (keyword ++ ' ' :: (e.path ++ ['/']))) ∧
    (∀ home default_path path : List Char,
      parse_query home (some (path ++ ['/'])) default_path
        = ⟨expanduser home path, []⟩) ∧
    (∀ home path : List Char, path.head? = some '/' → expanduser home path = path) ∧
    mk_descend_query "f".data "/home/u/docs".data = "f /home/u/docs/".data := by
  refine ⟨fun keyword e he => ?_, fun home dp path => ?_, fun home path hp => ?_, by decide⟩
  · rw [child_item, if_pos he, mk_descend_query]
  · have hne : path ++ ['/'] ≠ [] := by simp
    have hmem : '/' ∈ path ++ ['/'] := List.mem_append_right _ (List.mem_singleton.mpr rfl)
    have hsplit : pySplit '/' (path ++ ['/']) = pySplit '/' path ++ [[]] := by
      have := pySplit_append '/' [] (by simp) path
      simpa using this
    simp only [parse_query, if_pos (And.intro hne hmem)]
    rw [hsplit, List.dropLast_concat, List.getLastD_concat, pyJoin_pySplit]
  · cases path with
    | nil => cases hp
    | cons c rest =>
      have hc : c = '/' := by simpa using hp
      subst hc
      rfl

/-- Witness for C5 at the spec's concrete example. -/
theorem claim_C5_descend_round_trip_witness :
    (child_item "f".data ⟨"docs".data, "/home/u/docs".data, true⟩).on_enter
      = .SetUserQueryAction "f /home/u/docs/".data ∧
    parse_query "/h".data (some "/home/u/docs/".data) "/default".data
      = ⟨"/home/u/docs".data, []⟩ := by
  constructor
  · exact (claim_C5_descend_round_trip.1 "f".data
      ⟨"docs".data, "/home/u/docs".data, true⟩ rfl).trans (by decide)
  · rw [show ("/home/u/docs/".data : List Char) = "/home/u/docs".data ++ ['/'] from by decide]
    exact (claim_C5_descend_round_trip.2.1 "/h".data "/default".data
      "/home/u/docs".data).trans (by decide)

/-! ### Helper lemmas about the sort order -/

theorem strLE_trans : ∀ {x y z : List Char},
    strLE x y = true → strLE y z = true → strLE x z = true
  | [], _, _, _, _ => rfl
  | _ :: _, [], _, h, _ => by cases h
  | _ :: _, _ :: _, [], _, h => by cases h
  | a :: xs, b :: ys, c :: zs, h1, h2 => by
    simp only [strLE] at h1 h2 ⊢
    by_cases hab : a = b <;> by_cases hbc : b = c
    · subst hab; subst hbc
      rw [if_pos rfl] at h1 h2 ⊢
      exact strLE_trans h1 h2
    · subst hab
      rw [if_pos rfl] at h1
      rw [if_neg hbc] at h2
      rw [if_neg hbc]
      exact h2
    · subst hbc
      rw [if_neg hab] at h1
      rw [if_neg hab]
      exact h1
    · rw [if_neg hab] at h1
      rw [if_neg hbc] at h2
      rw [decide_eq_true_eq] at h1 h2
      have hac : a < c := lt_trans h1 h2
      rw [if_neg (ne_of_lt hac), decide_eq_true_eq]
      exact hac

theorem strLE_total : ∀ x y : List Char, strLE x y = true ∨ strLE y x = true
  | [], _ => Or.inl rfl
  | _ :: _, [] => Or.inr rfl
  | a :: xs, b :: ys => by
    by_cases hab : a = b
    · subst hab
      simp only [strLE, if_pos rfl]
      exact strLE_total xs ys
    · rcases lt_or_gt_of_ne hab with h | h
      · left
        simp [strLE, if_neg hab, h]
      · right
        simp [strLE, if_neg (Ne.symm hab), h]

theorem entry_le_trans {a b c : Entry} (h1 : entry_le a b = true)
    (h2 : entry_le b c = true) : entry_le a c = true := by
  obtain ⟨na, pa, da⟩ := a
  obtain ⟨nb, pb, db⟩ := b
  obtain ⟨nc, pc, dc⟩ := c
  unfold entry_le at h1 h2 ⊢
  cases da <;> cases db <;> cases dc <;> simp_all
  all_goals exact strLE_trans h1 h2

theorem entry_le_total (a b : Entry) : entry_le a b = true ∨ entry_le b a = true := by
  obtain ⟨na, pa, da⟩ := a
  obtain ⟨nb, pb, db⟩ := b
  unfold entry_le
  cases da <;> cases db <;> simp_all
  all_goals exact strLE_total _ _

instance : IsTotal Entry entryLE := ⟨fun a b => entry_le_total a b⟩

instance : IsTrans Entry entryLE := ⟨fun _ _ _ => entry_le_trans⟩

theorem sort_children_perm (l : List Entry) : (sort_children l).Perm l :=
  List.perm_insertionSort entryLE l

theorem sort_children_sorted (l : List Entry) : (sort_children l).Pairwise entryLE :=
  List.sorted_insertionSort entryLE l

theorem strLE_iff_lex : ∀ x y : List Char,
    strLE x y = true ↔ (x = y ∨ List.Lex (· < ·) x y)
  | [], [] => by simp [strLE]
  | [], _ :: _ => by
    simp only [strLE, true_iff]
    exact Or.inr List.Lex.nil
  | a :: xs, [] => by
    simp [strLE]
  | a :: xs, b :: ys => by
    by_cases hab : a = b
    · subst hab
      have hs : strLE (a :: xs) (a :: ys) = strLE xs ys := by simp [strLE]
      rw [hs, strLE_iff_lex xs ys]
      constructor
      · rintro (rfl | h)
        · exact Or.inl rfl
        · exact Or.inr (List.Lex.cons h)
      · rintro (h | h)
        · exact Or.inl (by injection h)
        · exact Or.inr (List.Lex.cons_iff.mp h)
    · simp only [strLE, if_neg hab, decide_eq_true_eq]
      constructor
      · intro h
        exact Or.inr (List.Lex.rel h)
      · rintro (h | h)
        · exact absurd (by injection h) hab
        · cases h with
          | cons h => exact absurd rfl hab
          | rel h => exact h

/-! ### Claim about the sort order -/

/-- C6: the sorted listing is a permutation of the directory's children in
which every directory precedes every file, and entries of the same kind
appear in ascending (lexicographic code-point) name order; as a function of
the children it is deterministic. -/
theorem claim_C6_sorting : ∀ l : List Entry,
    (sort_children l).Perm l ∧
    (sort_children l).Pairwise (fun a b =>
      (a.is_dir = false → b.is_dir = false) ∧
      (a.is_dir = b.is_dir → (a.name = b.name ∨ List.Lex (· < ·) a.name b.name))) := by
  intro l
  refine ⟨sort_children_perm l, (sort_children_sorted l).imp ?_⟩
  intro a b hab
  have hab' : entry_le a b = true := hab
  constructor
  · intro ha
    by_contra hb'
    have hb : b.is_dir = true := by
      revert hb'
      cases b.is_dir <;> simp
    unfold entry_le at hab'
    rw [ha, hb] at hab'
    simp at hab'
  · intro heq
    unfold entry_le at hab'
    rw [heq, if_pos rfl] at hab'
    exact (strLE_iff_lex a.name b.name).mp hab'

/-! ### Helper lemmas about the listing loop and the limit -/

theorem list_children_of_no_break (keyword filter_ : List Char) (sh : Bool)
    (limit : LimitSetting) (hl : ∀ k, 1 ≤ k → limit_reached limit k = false) :
    ∀ (l : List Entry) (count : Nat),
      list_children keyword filter_ sh limit l count
        = (l.filter (passes_rules sh filter_)).map (child_item keyword)
  | [], _ => rfl
  | c :: rest, count => by
    simp only [list_children, List.filter_cons, passes_rules]
    by_cases h1 : (sh || !(c.name.head? == some '.')) = true
    · by_cases h2 : matches_filter c.name filter_ = true
      · rw [if_pos h1, if_pos h2, hl (count + 1) (by omega),
          list_children_of_no_break keyword filter_ sh limit hl rest (count + 1)]
        simp [h1, h2]
      · rw [if_pos h1, if_neg h2,
          list_children_of_no_break keyword filter_ sh limit hl rest count]
        simp [h2]
    · rw [if_neg h1,
        list_children_of_no_break keyword filter_ sh limit hl rest count]
      simp [h1]

theorem list_children_take (keyword filter_ : List Char) (sh : Bool) (N : Int) :
    ∀ (l : List Entry) (count : Nat), (count : Int) < N →
      list_children keyword filter_ sh (.numeric N) l count
        = ((l.filter (passes_rules sh filter_)).take (N - count).toNat).map
            (child_item keyword)
  | [], _, _ => by simp [list_children]
  | c :: rest, count, hcount => by
    simp only [list_children, List.filter_cons, passes_rules]
    by_cases h1 : (sh || !(c.name.head? == some '.')) = true
    · by_cases h2 : matches_filter c.name filter_ = true
      · rw [if_pos h1, if_pos h2]
        by_cases hcap : ((count + 1 : Nat) : Int) = N
        · have hbreak : limit_reached (.numeric N) (count + 1) = true := by
            simp only [limit_reached]
            exact beq_iff_eq.mpr hcap
          rw [hbreak, if_pos rfl]
          have h1' : (N - count).toNat = 1 := by push_cast at hcap ⊢; omega
          simp [h1, h2, h1']
        · have hbreak : limit_reached (.numeric N) (count + 1) = false := by
            simp only [limit_reached]
            exact beq_eq_false_iff_ne.mpr hcap
          rw [hbreak]
          have hlt : ((count + 1 : Nat) : Int) < N := by push_cast at hcap ⊢; omega
          rw [if_neg (by simp),
            list_children_take keyword filter_ sh N rest (count + 1) hlt]
          have htn : (N - (count : Int)).toNat
              = (N - ((count + 1 : Nat) : Int)).toNat + 1 := by
            push_cast
            omega
          simp only [h1, h2, if_true, Bool.and_self, true_and]
          rw [htn, List.take_succ_cons, List.map_cons]
      · rw [if_pos h1, if_neg h2,
          list_children_take keyword filter_ sh N rest count hcount]
        simp [h2]
    · rw [if_neg h1,
        list_children_take keyword filter_ sh N rest count hcount]
      simp [h1]

/-! ### Claim about the items limit (corrected) -/

/-- C7 (amended): for a configured numeric limit N ≥ 1 the loop returns
exactly the first N entries passing the visibility and filter rules in
sorted order (so at most N of them); when the limit is absent, non-numeric,
or ≤ 0, no truncation occurs. The synthetic open-folder item is built
outside this loop and never counts toward N. -/
theorem claim_C7_limit_amended (keyword filter_ : List Char) (sh : Bool)
    (children : List Entry) (N : Int) (s : List Char) :
    (1 ≤ N → list_children keyword filter_ sh (.numeric N) (sort_children children) 0
        = (((sort_children children).filter (passes_rules sh filter_)).take N.toNat).map
            (child_item keyword)) ∧
    (1 ≤ N →
      (list_children keyword filter_ sh (.numeric N) (sort_children children) 0).length
        ≤ N.toNat) ∧
    (N ≤ 0 → list_children keyword filter_ sh (.numeric N) (sort_children children) 0
        = ((sort_children children).filter (passes_rules sh filter_)).map
            (child_item keyword)) ∧
    (list_children keyword filter_ sh .noLimit (sort_children children) 0
        = ((sort_children children).filter (passes_rules sh filter_)).map
            (child_item keyword)) ∧
    (list_children keyword filter_ sh (.invalid s) (sort_children children) 0
        = ((sort_children children).filter (passes_rules sh filter_)).map
            (child_item keyword)) := by
  have htake : ∀ h : 1 ≤ N,
      list_children keyword filter_ sh (.numeric N) (sort_children children) 0
        = (((sort_children children).filter (passes_rules sh filter_)).take N.toNat).map
            (child_item keyword) := by
    intro h
    have := list_children_take keyword filter_ sh N (sort_children children) 0 (by omega)
    simpa using this
  refine ⟨htake, fun h => ?_, fun h => ?_, ?_, ?_⟩
  · rw [htake h]
    rw [List.length_map, List.length_take]
    omega
  · refine list_children_of_no_break keyword filter_ sh (.numeric N) (fun k hk => ?_) _ 0
    simp only [limit_reached]
    rw [beq_eq_false_iff_ne]
    omega
  · exact list_children_of_no_break keyword filter_ sh .noLimit (fun k hk => rfl) _ 0
  · exact list_children_of_no_break keyword filter_ sh (.invalid s) (fun k hk => rfl) _ 0

/-- Witness for the amended C7 at a concrete input (limit 1, two passing
entries: only the first sorted entry is returned). -/
theorem claim_C7_limit_amended_witness :
    list_children "f".data [] true (.numeric 1)
      (sort_children [⟨"b".data, "/d/b".data, false⟩, ⟨"a".data, "/d/a".data, false⟩]) 0
      = (List.take (1 : Int).toNat
          (List.filter (passes_rules true [])
            (sort_children [⟨"b".data, "/d/b".data, false⟩,
              ⟨"a".data, "/d/a".data, false⟩]))).map (child_item "f".data) :=
  (claim_C7_limit_amended "f".data [] true
    [⟨"b".data, "/d/b".data, false⟩, ⟨"a".data, "/d/a".data, false⟩] 1 []).1 (by omega)

/-- Counterexample to C7 as stated: with the valid configured limit `"0"`
(numeric N = 0), the loop performs no truncation at all — here one
non-synthetic entry is returned although the claim demands at most zero. -/
theorem claim_C7_counterexample :
    parse_items_limit (some "0".data) = .numeric 0 ∧
    list_children "f".data [] true (.numeric 0) [⟨"a".data, "/d/a".data, false⟩] 0
      = [child_item "f".data ⟨"a".data, "/d/a".data, false⟩] ∧
    ¬((list_children "f".data [] true (.numeric 0)
        [⟨"a".data, "/d/a".data, false⟩] 0).length ≤ 0) := by
  refine ⟨by decide, by decide, by decide⟩

/-! ### Claim about unavailable paths (code bug) -/

/-- C8: contrary to the spec's requirement, `on_event` has no handling for a
failing `iterdir()`: with a filesystem on which the base path cannot be
listed, the handler ends in the unhandled exception (modelled `.error`) and
never returns a result list, empty or otherwise. -/
theorem claim_C8_unavailable_path_crashes :
    on_event "f".data (some "/nonexistent/".data) ⟨"/default".data, none, none⟩
      "/h".data (fun _ => none) = .error .fileNotFound ∧
    ∀ items : List ResultItem,
      on_event "f".data (some "/nonexistent/".data) ⟨"/default".data, none, none⟩
        "/h".data (fun _ => none) ≠ .ok items := by
  have he : on_event "f".data (some "/nonexistent/".data)
      ⟨"/default".data, none, none⟩ "/h".data (fun _ => none)
      = .error .fileNotFound := by decide
  exact ⟨he, fun items h => Except.noConfusion (he.symm.trans h)⟩

/-! ### Claim about the synthetic open-folder item -/

theorem mem_list_children {keyword filter_ : List Char} {sh : Bool}
    {limit : LimitSetting} {x : ResultItem} :
    ∀ {l : List Entry} {count : Nat},
      x ∈ list_children keyword filter_ sh limit l count →
      ∃ e, e ∈ l ∧ x = child_item keyword e := by
  intro l
  induction l with
  | nil => intro count h; cases h
  | cons c rest ih =>
    intro count h
    simp only [list_children] at h
    by_cases h1 : (sh || !(c.name.head? == some '.')) = true
    · rw [if_pos h1] at h
      by_cases h2 : matches_filter c.name filter_ = true
      · rw [if_pos h2] at h
        by_cases h3 : limit_reached limit (count + 1) = true
        · rw [if_pos h3] at h
          exact ⟨c, List.mem_cons_self c rest, List.mem_singleton.mp h⟩
        · rw [if_neg h3] at h
          cases List.mem_cons.mp h with
          | inl hx => exact ⟨c, List.mem_cons_self c rest, hx⟩
          | inr hx =>
            obtain ⟨e, he, hxe⟩ := ih hx
            exact ⟨e, List.mem_cons_of_mem c he, hxe⟩
      · rw [if_neg h2] at h
        obtain ⟨e, he, hxe⟩ := ih h
        exact ⟨e, List.mem_cons_of_mem c he, hxe⟩
    · rw [if_neg h1] at h
      obtain ⟨e, he, hxe⟩ := ih h
      exact ⟨e, List.mem_cons_of_mem c he, hxe⟩

/-- C9: when the query succeeds on a directory none of whose children has
the base path itself as its own path, the result contains the synthetic
"open current folder" item exactly once if and only if the active filter is
empty; when present it is the first item, and its action is always
`OpenAction` on the base path. -/
theorem claim_C9_synthetic_open_folder_item
    (keyword : List Char) (argument : Option (List Char)) (prefs : Preferences)
    (home : List Char) (fs : List Char → Option (List Entry))
    (children : List Entry) (items : List ResultItem)
    (hfs : fs (parse_query home argument prefs.fb_default_path).base_path = some children)
    (hpaths : ∀ e ∈ children,
      e.path ≠ (parse_query home argument prefs.fb_default_path).base_path)
    (hok : on_event keyword argument prefs home fs = .ok items) :
    (items.count
        (open_folder_item (parse_query home argument prefs.fb_default_path).base_path) = 1
      ↔ (parse_query home argument prefs.fb_default_path).filter = []) ∧
    ((parse_query home argument prefs.fb_default_path).filter = [] →
      items.head? = some
        (open_folder_item (parse_query home argument prefs.fb_default_path).base_path)) ∧
    (open_folder_item (parse_query home argument prefs.fb_default_path).base_path).on_enter
      = .OpenAction (parse_query home argument prefs.fb_default_path).base_path := by
  simp only [on_event] at hok
  rw [hfs] at hok
  have hitems := (Except.ok.injEq _ _).mp hok
  have hnotmem : open_folder_item (parse_query home argument prefs.fb_default_path).base_path
      ∉ list_children keyword (parse_query home argument prefs.fb_default_path).filter
          (prefs.fb_show_hidden == some "Yes".data)
          (parse_items_limit prefs.fb_items_limit) (sort_children children) 0 := by
    intro hmem
    obtain ⟨e, he, hx⟩ := mem_list_children hmem
    have he' : e ∈ children := (sort_children_perm children).mem_iff.mp he
    have hact := congrArg ResultItem.on_enter hx
    rw [open_folder_item, child_item] at hact
    by_cases hd : e.is_dir = true
    · rw [if_pos hd] at hact
      exact ItemAction.noConfusion hact
    · rw [if_neg hd] at hact
      have hpath := (ItemAction.OpenAction.injEq _ _).mp hact
      exact hpaths e he' hpath.symm
  refine ⟨?_, ?_, rfl⟩
  · cases hf : (parse_query home argument prefs.fb_default_path).filter with
    | nil =>
      rw [hf] at hitems hnotmem
      simp only [List.isEmpty_nil, eq_self_iff_true, if_true] at hitems
      rw [← hitems, List.singleton_append, List.count_cons,
        List.count_eq_zero.mpr hnotmem]
      simp
    | cons c cs =>
      rw [hf] at hitems hnotmem
      simp only [List.isEmpty_cons] at hitems
      rw [if_neg (by simp), List.nil_append] at hitems
      rw [← hitems, List.count_eq_zero.mpr hnotmem]
      simp
  · intro hf
    rw [hf] at hitems
    simp only [List.isEmpty_nil, eq_self_iff_true, if_true] at hitems
    rw [← hitems]
    rfl

/-- Witness for C9 at a concrete input: a one-file directory queried with no
argument (empty filter). -/
theorem claim_C9_synthetic_open_folder_item_witness :
    (([open_folder_item (parse_query "/h".data none "/d".data).base_path,
        child_item "f".data ⟨"a".data, "/d/a".data, false⟩].count
          (open_folder_item (parse_query "/h".data none "/d".data).base_path) = 1
      ↔ (parse_query "/h".data none "/d".data).filter = []) ∧
     ((parse_query "/h".data none "/d".data).filter = [] →
       [open_folder_item (parse_query "/h".data none "/d".data).base_path,
         child_item "f".data ⟨"a".data, "/d/a".data, false⟩].head?
        = some (open_folder_item (parse_query "/h".data none "/d".data).base_path)) ∧
     (open_folder_item (parse_query "/h".data none "/d".data).base_path).on_enter
       = .OpenAction (parse_query "/h".data none "/d".data).base_path) :=
  claim_C9_synthetic_open_folder_item "f".data none ⟨"/d".data, none, none⟩ "/h".data
    (fun p => if p = "/d".data then some [⟨"a".data, "/d/a".data, false⟩] else none)
    [⟨"a".data, "/d/a".data, false⟩]
    [open_folder_item (parse_query "/h".data none "/d".data).base_path,
      child_item "f".data ⟨"a".data, "/d/a".data, false⟩]
    (by decide) (by decide) (by decide)

end FileBrowser
